import Mathlib

/-! Verification of the Go lecture exercises.

A shallow embedding of the numeric utilities of the repository
(`Lecture2/Solution`, `Lecture3/Solution`, `Lecture4/Solution`) together with
theorems about them.

Modelling conventions.

* A Go `int` is a 64-bit two's-complement integer.  It is embedded as a Lean
  `Int`; every arithmetic result that can leave the 64-bit range is passed
  through `wrapInt`, comparisons are exact.
* Go's `/` and `%` on `int` truncate toward zero: `Int.tdiv` and `Int.tmod`.
* A Go slice `[]int` is a `List Int`.
* A `panic` is an `Except.error` carrying the panic message.
* A `float64` is embedded as an element of a linearly ordered field with exact
  arithmetic (no rounding, no infinities, no NaN); the definitions are generic
  in the field so that they evaluate over `ℚ` and can be reasoned about over `ℝ`.
  The bank account is generic in the carrier of its balance, so that it also runs
  over `Float64`, which has NaN, the infinities and a rounding of finite results.
-/

/-! ## Go `int` -/

/-- Two's-complement reduction of an exact integer into the range of a 64-bit Go `int`. -/
def wrapInt (x : Int) : Int := (x + 2 ^ 63) % 2 ^ 64 - 2 ^ 63

/-- The values a 64-bit Go `int` can hold. -/
def IsGoInt (x : Int) : Prop := -(2 ^ 63) ≤ x ∧ x < 2 ^ 63

instance (x : Int) : Decidable (IsGoInt x) := by
  unfold IsGoInt; infer_instance

/-! ## `Lecture3/Solution/Task3/stats/stats.go` -/

namespace stats

/-- Go `stats.Largest`: panics on the empty slice, otherwise scans all of `nums`
with `largest` initialised to `nums[0]`. -/
def Largest (nums : List Int) : Except String Int :=
  match nums with
  | [] => Except.error "slice is empty"
  | first :: _ =>
    Except.ok (nums.foldl (fun largest num => if num > largest then num else largest) first)

/-- Go `stats.Smallest`: panics on the empty slice, otherwise scans all of `nums`
with `smallest` initialised to `nums[0]`. -/
def Smallest (nums : List Int) : Except String Int :=
  match nums with
  | [] => Except.error "slice is empty"
  | first :: _ =>
    Except.ok (nums.foldl (fun smallest num => if num < smallest then num else smallest) first)

/-- Go `stats.Average`: panics on the empty slice, otherwise accumulates `sum` in a
Go `int` (each `sum += num` wraps) and divides by the length.  The `float64`
quotient is taken as an exact rational. -/
def Average (nums : List Int) : Except String ℚ :=
  if nums.length = 0 then
    Except.error "slice is empty"
  else
    let sum := nums.foldl (fun sum num => wrapInt (sum + num)) 0
    Except.ok ((sum : ℚ) / (nums.length : ℚ))

end stats

/-! ## `Lecture3/Solution/Task1.go` -/

/-- The loop bound `int(math.Sqrt(float64(n)))`, read as the integer floor square
root of `n` (it is only evaluated for `n ≥ 3`). -/
def intSqrt (n : Int) : Int := (Nat.sqrt n.toNat : Int)

/-- The `for i := 2; i <= int(math.Sqrt(float64(n))); i++` loop of `isPrime`, entered
with the current value of `i`.  Here `i ≤ intSqrt n < 2 ^ 32` for every Go `int`
`n`, so `i++` never wraps. -/
def isPrime.loop (n i : Int) : Bool :=
  if i ≤ intSqrt n then
    if n.tmod i = 0 then false else isPrime.loop n (i + 1)
  else true
termination_by (intSqrt n + 1 - i).toNat
decreasing_by omega

/-- Go `isPrime`. -/
def isPrime (n : Int) : Bool :=
  if n < 2 then false
  else if n = 2 then true
  else isPrime.loop n 2

/-! ## `Lecture3/Solution/Task2.go` -/

/-- Go `toBinary`, with the arithmetic taken as exact (unbounded integers). -/
def toBinary (n : Int) : Int :=
  if n = 0 then 0 else 10 * toBinary (n.tdiv 2) + n.tmod 2
termination_by n.natAbs
decreasing_by
  rw [Int.natAbs_tdiv]
  exact Nat.div_lt_self (by omega) (by decide)

/-- Go `toBinary` on 64-bit `int`s: the product and the sum both wrap. -/
def toBinary64 (n : Int) : Int :=
  if n = 0 then 0 else wrapInt (wrapInt (10 * toBinary64 (n.tdiv 2)) + n.tmod 2)
termination_by n.natAbs
decreasing_by
  rw [Int.natAbs_tdiv]
  exact Nat.div_lt_self (by omega) (by decide)

/-! ## `Lecture4/Solution/Task1.go` -/

/-! ### Go `float64` with its special values -/

/-- A Go `float64` value: NaN, an infinity, or a finite value (a rational; the two
zeros are one value).  The parameter `rnd` is the rounding of the exact result of an
operation on finite values to a representable value, `none` when it overflows. -/
inductive Float64 (rnd : ℚ → Option ℚ) where
  | nan
  | posInf
  | negInf
  | finite (x : ℚ)
  deriving DecidableEq

namespace Float64

variable {rnd : ℚ → Option ℚ}

/-- The `float64` result of an operation on finite values whose exact result is `x`:
the rounded value, or the infinity of the sign of `x` on overflow. -/
def round (x : ℚ) : Float64 rnd :=
  match rnd x with
  | some y => finite y
  | none => if 0 ≤ x then posInf else negInf

/-- IEEE 754 addition, Go's `+` on `float64`. -/
def add : Float64 rnd → Float64 rnd → Float64 rnd
  | nan, _ => nan
  | _, nan => nan
  | posInf, negInf => nan
  | negInf, posInf => nan
  | posInf, _ => posInf
  | _, posInf => posInf
  | negInf, _ => negInf
  | _, negInf => negInf
  | finite x, finite y => round (x + y)

/-- IEEE 754 subtraction, Go's `-` on `float64`. -/
def sub : Float64 rnd → Float64 rnd → Float64 rnd
  | nan, _ => nan
  | _, nan => nan
  | posInf, posInf => nan
  | negInf, negInf => nan
  | posInf, _ => posInf
  | _, negInf => posInf
  | negInf, _ => negInf
  | _, posInf => negInf
  | finite x, finite y => round (x - y)

/-- IEEE 754 `<`: false whenever an operand is NaN. -/
def blt : Float64 rnd → Float64 rnd → Bool
  | nan, _ => false
  | _, nan => false
  | posInf, _ => false
  | _, negInf => false
  | negInf, _ => true
  | _, posInf => true
  | finite x, finite y => decide (x < y)

/-- IEEE 754 `<=`: false whenever an operand is NaN. -/
def ble : Float64 rnd → Float64 rnd → Bool
  | nan, _ => false
  | _, nan => false
  | negInf, _ => true
  | _, posInf => true
  | posInf, _ => false
  | _, negInf => false
  | finite x, finite y => decide (x ≤ y)

instance : Add (Float64 rnd) := ⟨add⟩

instance : Sub (Float64 rnd) := ⟨sub⟩

instance : LT (Float64 rnd) := ⟨fun x y => blt x y = true⟩

instance : LE (Float64 rnd) := ⟨fun x y => ble x y = true⟩

instance (x y : Float64 rnd) : Decidable (x < y) :=
  inferInstanceAs (Decidable (blt x y = true))

instance (x y : Float64 rnd) : Decidable (x ≤ y) :=
  inferInstanceAs (Decidable (ble x y = true))

end Float64

/-- Go `BankAccount`; the carrier `α` of the `float64` balance is an exact ordered
field or `Float64`. -/
structure BankAccount (α : Type) where
  balance : α

namespace BankAccount

variable {α : Type} [Add α] [Sub α] [LT α] [∀ a b : α, Decidable (a < b)]

/-- Go `(*BankAccount).Deposit`: returns the account after the call. -/
def Deposit (b : BankAccount α) (amount : α) : BankAccount α :=
  { balance := b.balance + amount }

/-- Go `(*BankAccount).Withdraw`: returns the account after the call and the
returned `error` (`none` for `nil`). -/
def Withdraw (b : BankAccount α) (amount : α) : BankAccount α × Option String :=
  if amount > b.balance then
    (b, some "insufficient funds")
  else
    ({ balance := b.balance - amount }, none)

/-- One method call on an account. -/
inductive Call (α : Type) where
  | deposit (amount : α)
  | withdraw (amount : α)

/-- The account after one call; the error of a `Withdraw` is dropped. -/
def step (b : BankAccount α) : Call α → BankAccount α
  | Call.deposit amount => b.Deposit amount
  | Call.withdraw amount => (b.Withdraw amount).1

/-- The account after a finite sequence of calls, in order. -/
def run (b : BankAccount α) (calls : List (Call α)) : BankAccount α :=
  calls.foldl step b

end BankAccount

/-! ## `Lecture2/Solution/Task5.go` -/

namespace Task5

/-- The line printed by `main`, with the numbers it is formatted from. -/
inductive Output (α : Type) where
  /-- Prints "Linear equation root: x". -/
  | linearRoot (x : α)
  /-- Prints "Infinite solutions". -/
  | infiniteSolutions
  /-- Prints "No real solutions". -/
  | noRealSolutions
  /-- Prints "Two real and distinct roots: root1 and root2". -/
  | twoRoots (root1 root2 : α)
  /-- Prints "One real root: root". -/
  | oneRoot (root : α)
  deriving DecidableEq, Repr

variable {α : Type} [LinearOrderedField α]

/-- Go `main` of `Task5.go` after the coefficients `a`, `b`, `c` have been read;
`sqrt` stands for `math.Sqrt` and `math.Pow(b, 2)` is `b ^ 2`. -/
def main (sqrt : α → α) (a b c : α) : Output α :=
  if a = 0 ∧ b ≠ 0 then
    let x := -c / b
    Output.linearRoot x
  else if b = 0 then
    if c = 0 then
      Output.infiniteSolutions
    else
      Output.noRealSolutions
  else
    let discriminant := b ^ 2 - 4 * a * c
    if discriminant > 0 then
      let root1 := (-b + sqrt discriminant) / (2 * a)
      let root2 := (-b - sqrt discriminant) / (2 * a)
      Output.twoRoots root1 root2
    else if discriminant = 0 then
      let root := -b / (2 * a)
      Output.oneRoot root
    else
      Output.noRealSolutions

end Task5

namespace Task5

variable {α : Type} [LinearOrderedField α]

/-- What an output of `main` asserts about the equation `a * x ^ 2 + b * x + c = 0`:
every reported root solves it, "Infinite solutions" says that every `x` solves it,
and "No real solutions" says that no `x` does. -/
def Output.Sound (a b c : α) : Output α → Prop
  | Output.linearRoot x => a * x ^ 2 + b * x + c = 0
  | Output.infiniteSolutions => ∀ x : α, a * x ^ 2 + b * x + c = 0
  | Output.noRealSolutions => ∀ x : α, a * x ^ 2 + b * x + c ≠ 0
  | Output.twoRoots root1 root2 =>
    a * root1 ^ 2 + b * root1 + c = 0 ∧ a * root2 ^ 2 + b * root2 + c = 0
  | Output.oneRoot root => a * root ^ 2 + b * root + c = 0

end Task5

/-! ## `Lecture3/Solution/Task2.go`, step-bounded -/

/-- Go `toBinary` with a bound on the depth of the recursion: `none` when `fuel`
calls do not reach the base case `n == 0`. -/
def toBinaryFuel : Nat → Int → Option Int
  | 0, _ => none
  | fuel + 1, n =>
    if n = 0 then some 0
    else (toBinaryFuel fuel (n.tdiv 2)).map (fun r => 10 * r + n.tmod 2)

/-! ## `Lecture2/Solution/Task6.go` -/

namespace Task6

/-- The line printed by `main`. -/
inductive Output where
  /-- Prints "Factorial is not defined for negative numbers." -/
  | notDefined
  /-- Prints "Factorial of n is factorial". -/
  | factorialIs (n factorial : Int)
  deriving DecidableEq, Repr

/-- The loop `for i <= n { factorial *= i; i++ }` on 64-bit `int`s, entered with the
current `i` and `factorial`; both updates wrap.  The result is the value of
`factorial` when the loop exits, or `none` when it has not exited after `fuel`
evaluations of the loop condition. -/
def loop : Nat → Int → Int → Int → Option Int
  | 0, _, _, _ => none
  | fuel + 1, n, i, factorial =>
    if i ≤ n then loop fuel n (wrapInt (i + 1)) (wrapInt (factorial * i))
    else some factorial

/-- Go `main` of `Task6.go` after `n` has been read; `none` when the loop has not
exited within `fuel` evaluations of its condition. -/
def main (fuel : Nat) (n : Int) : Option Output :=
  if n < 0 then
    some Output.notDefined
  else
    (loop fuel n 1 1).map (fun factorial => Output.factorialIs n factorial)

end Task6

/-! ## `Lecture2/Solution/Task4.go` -/

namespace Task4

/-- The `case` clauses of the grading `switch`, in source order: the condition on
`score` and the line printed. -/
def gradeCases : List ((Int → Bool) × String) :=
  [(fun score => decide (score ≥ 80) && decide (score ≤ 100), "A+"),
   (fun score => decide (score ≥ 75) && decide (score ≤ 79), "A"),
   (fun score => decide (score ≥ 70) && decide (score ≤ 74), "A-"),
   (fun score => decide (score ≥ 65) && decide (score ≤ 69), "B+"),
   (fun score => decide (score ≥ 60) && decide (score ≤ 64), "B"),
   (fun score => decide (score ≥ 55) && decide (score ≤ 59), "B-"),
   (fun score => decide (score ≥ 50) && decide (score ≤ 54), "C+"),
   (fun score => decide (score ≥ 45) && decide (score ≤ 49), "C"),
   (fun score => decide (score ≥ 40) && decide (score ≤ 44), "D"),
   (fun score => decide (score ≥ 0) && decide (score ≤ 39), "F")]

/-- The grading `switch` of `main`: the line of the first case whose condition holds,
and the `default` line when none does. -/
def grade (score : Int) : String :=
  match gradeCases.find? (fun c => c.1 score) with
  | some c => c.2
  | none => "Invalid score"

/-- The grades from the lowest to the highest. -/
def gradeOrder : List String := ["F", "D", "C", "C+", "B-", "B", "B+", "A-", "A", "A+"]

/-- The position of a printed line in `gradeOrder` (10 for a line that is no grade). -/
def gradeRank (g : String) : Nat := gradeOrder.indexOf g

end Task4

/-! ## `Lecture4/Solution/Task2.go` -/

/-- A Go `string`: a finite sequence of bytes; `len` is its length. -/
abbrev GoString := List (Fin 256)

/-- Go `StringWriter`. -/
structure StringWriter where
  content : GoString

namespace StringWriter

/-- Go `(*StringWriter).Write`: the writer after the call, the returned count and the
returned `error` (`none` for `nil`). -/
def Write (sw : StringWriter) (data : GoString) : StringWriter × Int × Option String :=
  ({ content := sw.content ++ data }, (data.length : Int), none)

/-- Writes the strings of `ds` in order; returns the final writer and the list of the
returned counts. -/
def writeAll (sw : StringWriter) : List GoString → StringWriter × List Int
  | [] => (sw, [])
  | d :: ds =>
    let r := sw.Write d
    let rest := writeAll r.1 ds
    (rest.1, r.2.1 :: rest.2)

end StringWriter

/-! ## `Lecture4/Solution/Task3.go` -/

/-- Go `SafeSqrt`; `sqrt` stands for `math.Sqrt`.  The error carries the format string
of `fmt.Errorf` and its argument. -/
def SafeSqrt {α : Type} [LinearOrderedField α] (sqrt : α → α) (num : α) :
    α × Option (String × α) :=
  if num < 0 then
    (0, some ("cannot calculate sqrt of negative number: %f", num))
  else
    (sqrt num, none)

/-! ## Aggregate statistics -/

namespace stats

theorem foldl_largest_ge_init (l : List Int) (init : Int) :
    init ≤ l.foldl (fun largest num => if num > largest then num else largest) init := by
  induction l generalizing init with
  | nil => simp
  | cons y ys ih =>
    simp only [List.foldl_cons]
    split
    · exact le_trans (by omega) (ih y)
    · exact ih init

theorem foldl_largest_ge_mem (l : List Int) (init x : Int) (hx : x ∈ l) :
    x ≤ l.foldl (fun largest num => if num > largest then num else largest) init := by
  induction l generalizing init with
  | nil => simp at hx
  | cons y ys ih =>
    simp only [List.foldl_cons]
    rcases List.mem_cons.mp hx with rfl | h
    · split
      · exact foldl_largest_ge_init ys x
      · exact le_trans (by omega) (foldl_largest_ge_init ys init)
    · exact ih _ h

theorem foldl_smallest_le_init (l : List Int) (init : Int) :
    l.foldl (fun smallest num => if num < smallest then num else smallest) init ≤ init := by
  induction l generalizing init with
  | nil => simp
  | cons y ys ih =>
    simp only [List.foldl_cons]
    split
    · exact le_trans (ih y) (by omega)
    · exact ih init

theorem foldl_smallest_le_mem (l : List Int) (init x : Int) (hx : x ∈ l) :
    l.foldl (fun smallest num => if num < smallest then num else smallest) init ≤ x := by
  induction l generalizing init with
  | nil => simp at hx
  | cons y ys ih =>
    simp only [List.foldl_cons]
    rcases List.mem_cons.mp hx with rfl | h
    · split
      · exact foldl_smallest_le_init ys x
      · exact le_trans (foldl_smallest_le_init ys init) (by omega)
    · exact ih _ h

/-- C1: for every non-empty slice `S`, `Smallest` and `Largest` return values `lo` and
`hi` with `lo ≤ x ≤ hi` for every element `x` of `S`. -/
theorem smallest_le_elem_le_largest (S : List Int) (hS : S ≠ []) :
    ∃ lo hi, Smallest S = Except.ok lo ∧ Largest S = Except.ok hi ∧
      ∀ x ∈ S, lo ≤ x ∧ x ≤ hi := by
  cases S with
  | nil => exact absurd rfl hS
  | cons first rest =>
    refine ⟨_, _, rfl, rfl, fun x hx => ⟨?_, ?_⟩⟩
    · exact foldl_smallest_le_mem _ _ _ hx
    · exact foldl_largest_ge_mem _ _ _ hx

theorem smallest_le_elem_le_largest_witness :
    ([3, 1, 4, 1, 5, 9, 2, 6, 5, 3, 5] : List Int) ≠ [] ∧
    ∃ lo hi, Smallest [3, 1, 4, 1, 5, 9, 2, 6, 5, 3, 5] = Except.ok lo ∧
      Largest [3, 1, 4, 1, 5, 9, 2, 6, 5, 3, 5] = Except.ok hi ∧
      ∀ x ∈ ([3, 1, 4, 1, 5, 9, 2, 6, 5, 3, 5] : List Int), lo ≤ x ∧ x ≤ hi :=
  ⟨by decide, smallest_le_elem_le_largest _ (by decide)⟩

/-- C5: `Largest`, `Smallest` and `Average` each fail with "slice is empty" on a slice
of length zero, and each returns a value on every slice of non-zero length. -/
theorem fail_iff_empty (S : List Int) :
    (S.length = 0 →
      Largest S = Except.error "slice is empty" ∧
      Smallest S = Except.error "slice is empty" ∧
      Average S = Except.error "slice is empty") ∧
    (S.length ≠ 0 →
      (∃ v, Largest S = Except.ok v) ∧ (∃ v, Smallest S = Except.ok v) ∧
      (∃ v, Average S = Except.ok v)) := by
  cases S with
  | nil => simp [Largest, Smallest, Average]
  | cons first rest => simp [Largest, Smallest, Average]

theorem fail_iff_empty_witness :
    (Largest [] = Except.error "slice is empty" ∧
      Smallest [] = Except.error "slice is empty" ∧
      Average [] = Except.error "slice is empty") ∧
    ((∃ v, Largest [7, -2] = Except.ok v) ∧ (∃ v, Smallest [7, -2] = Except.ok v) ∧
      (∃ v, Average [7, -2] = Except.ok v)) :=
  ⟨(fail_iff_empty []).1 rfl, (fail_iff_empty [7, -2]).2 (by decide)⟩

theorem wrapInt_of_isGoInt (x : Int) (hx : IsGoInt x) : wrapInt x = x := by
  unfold IsGoInt at hx
  unfold wrapInt
  omega

theorem wrapInt_wrapInt_add (a b : Int) : wrapInt (wrapInt a + b) = wrapInt (a + b) := by
  unfold wrapInt
  omega

theorem foldl_wrapInt_sum (l : List Int) (a : Int) :
    l.foldl (fun sum num => wrapInt (sum + num)) (wrapInt a) = wrapInt (a + l.sum) := by
  induction l generalizing a with
  | nil => simp
  | cons y ys ih =>
    simp only [List.foldl_cons, List.sum_cons]
    rw [wrapInt_wrapInt_add, ih, add_assoc]

theorem mul_length_le_sum (l : List Int) (lo : Int) (h : ∀ x ∈ l, lo ≤ x) :
    lo * l.length ≤ l.sum := by
  induction l with
  | nil => simp
  | cons y ys ih =>
    have h1 := h y (List.mem_cons_self _ _)
    have h2 := ih (fun x hx => h x (List.mem_cons_of_mem _ hx))
    simp only [List.length_cons, List.sum_cons, Nat.cast_add, Nat.cast_one]
    linarith

theorem sum_le_mul_length (l : List Int) (hi : Int) (h : ∀ x ∈ l, x ≤ hi) :
    l.sum ≤ hi * l.length := by
  induction l with
  | nil => simp
  | cons y ys ih =>
    have h1 := h y (List.mem_cons_self _ _)
    have h2 := ih (fun x hx => h x (List.mem_cons_of_mem _ hx))
    simp only [List.length_cons, List.sum_cons, Nat.cast_add, Nat.cast_one]
    linarith

theorem average_eq_of_sum_fits (S : List Int) (hS : S ≠ []) (hsum : IsGoInt S.sum) :
    Average S = Except.ok ((S.sum : ℚ) / (S.length : ℚ)) := by
  have hlen : S.length ≠ 0 := by simpa using hS
  have h0 : (0 : Int) = wrapInt 0 := by decide
  unfold Average
  rw [if_neg hlen]
  simp only
  rw [h0, foldl_wrapInt_sum, zero_add, wrapInt_of_isGoInt _ hsum]

/-- C6 (fails as stated): on the slice `[2^63 - 1, 2^63 - 1]` of Go ints the wrapped sum
is `-2`, so `Average` returns `-1`, which is below `Smallest = 2^63 - 1`. -/
theorem average_below_smallest_on_overflow :
    IsGoInt (2 ^ 63 - 1) ∧
    Smallest [2 ^ 63 - 1, 2 ^ 63 - 1] = Except.ok (2 ^ 63 - 1) ∧
    Largest [2 ^ 63 - 1, 2 ^ 63 - 1] = Except.ok (2 ^ 63 - 1) ∧
    Average [2 ^ 63 - 1, 2 ^ 63 - 1] = Except.ok (-1) ∧
    ¬ (((2 ^ 63 - 1 : Int) : ℚ) ≤ -1) := by
  refine ⟨by decide, rfl, rfl, ?_, by norm_num⟩
  simp [Average, wrapInt]

/-- C6 (amended): for every non-empty slice `S` whose exact sum fits a 64-bit Go int,
`Smallest S ≤ Average S ≤ Largest S`, the quotient being an exact rational. -/
theorem smallest_le_average_le_largest (S : List Int) (hS : S ≠ []) (hsum : IsGoInt S.sum) :
    ∃ lo hi avg, Smallest S = Except.ok lo ∧ Largest S = Except.ok hi ∧
      Average S = Except.ok avg ∧ (lo : ℚ) ≤ avg ∧ avg ≤ (hi : ℚ) := by
  have hlen : (0 : ℚ) < (S.length : ℚ) := by
    have : 0 < S.length := List.length_pos.mpr hS
    exact_mod_cast this
  have havg := average_eq_of_sum_fits S hS hsum
  cases S with
  | nil => exact absurd rfl hS
  | cons first rest =>
    refine ⟨_, _, _, rfl, rfl, havg, ?_, ?_⟩
    · rw [le_div_iff₀ hlen]
      exact_mod_cast mul_length_le_sum (first :: rest) _
        (fun x hx => foldl_smallest_le_mem _ _ _ hx)
    · rw [div_le_iff₀ hlen]
      exact_mod_cast sum_le_mul_length (first :: rest) _
        (fun x hx => foldl_largest_ge_mem _ _ _ hx)

theorem smallest_le_average_le_largest_witness :
    ([3, 1, 4, 1, 5, 9, 2, 6, 5, 3, 5] : List Int) ≠ [] ∧
    IsGoInt ([3, 1, 4, 1, 5, 9, 2, 6, 5, 3, 5] : List Int).sum ∧
    ∃ lo hi avg, Smallest [3, 1, 4, 1, 5, 9, 2, 6, 5, 3, 5] = Except.ok lo ∧
      Largest [3, 1, 4, 1, 5, 9, 2, 6, 5, 3, 5] = Except.ok hi ∧
      Average [3, 1, 4, 1, 5, 9, 2, 6, 5, 3, 5] = Except.ok avg ∧
      (lo : ℚ) ≤ avg ∧ avg ≤ (hi : ℚ) :=
  ⟨by decide, by decide, smallest_le_average_le_largest _ (by decide) (by decide)⟩

end stats

/-! ## Primality test -/

theorem isPrime_loop_eq_true_iff (n : Int) (k : Nat) :
    ∀ i : Int, (intSqrt n + 1 - i).toNat = k →
      (isPrime.loop n i = true ↔ ∀ d : Int, i ≤ d → d ≤ intSqrt n → ¬ d ∣ n) := by
  induction k with
  | zero =>
    intro i hk
    rw [isPrime.loop]
    have hlt : ¬ i ≤ intSqrt n := by omega
    rw [if_neg hlt]
    simp only [true_iff]
    intro d h1 h2
    omega
  | succ k ih =>
    intro i hk
    rw [isPrime.loop]
    have hle : i ≤ intSqrt n := by omega
    rw [if_pos hle]
    by_cases hmod : n.tmod i = 0
    · rw [if_pos hmod]
      simp only [Bool.false_eq_true, false_iff]
      intro h
      exact h i le_rfl hle (Int.dvd_of_tmod_eq_zero hmod)
    · rw [if_neg hmod, ih (i + 1) (by omega)]
      constructor
      · intro h d h1 h2
        rcases eq_or_lt_of_le h1 with rfl | hlt
        · exact fun hd => hmod (Int.tmod_eq_zero_of_dvd hd)
        · exact h d (by omega) h2
      · intro h d h1 h2
        exact h d (by omega) h2

theorem intSqrt_spec (n : Int) (hn : 0 ≤ n) :
    0 ≤ intSqrt n ∧ intSqrt n * intSqrt n ≤ n ∧ n < (intSqrt n + 1) * (intSqrt n + 1) := by
  obtain ⟨m, rfl⟩ := Int.eq_ofNat_of_zero_le hn
  unfold intSqrt
  simp only [Int.toNat_ofNat]
  refine ⟨by positivity, ?_, ?_⟩
  · exact_mod_cast Nat.sqrt_le m
  · exact_mod_cast Nat.lt_succ_sqrt m

theorem isPrime_eq_true_iff_nat_prime (n : Int) : isPrime n = true ↔ Nat.Prime n.toNat := by
  unfold isPrime
  by_cases h2 : n < 2
  · rw [if_pos h2]
    simp only [Bool.false_eq_true, false_iff]
    intro hp
    have := hp.two_le
    omega
  · rw [if_neg h2]
    by_cases he : n = 2
    · rw [if_pos he]
      subst he
      simp only [true_iff]
      exact Nat.prime_two
    · rw [if_neg he, isPrime_loop_eq_true_iff n _ 2 rfl, Nat.prime_def_le_sqrt]
      obtain ⟨m, rfl⟩ := Int.eq_ofNat_of_zero_le (show 0 ≤ n by omega)
      simp only [Int.toNat_ofNat, intSqrt]
      constructor
      · intro h
        refine ⟨by omega, fun d h1 h2 hd => ?_⟩
        exact h d (by exact_mod_cast h1) (by exact_mod_cast h2) (by exact_mod_cast hd)
      · rintro ⟨-, h⟩ d h1 h2 hd
        obtain ⟨e, rfl⟩ := Int.eq_ofNat_of_zero_le (show 0 ≤ d by omega)
        exact h e (by exact_mod_cast h1) (by exact_mod_cast h2) (by exact_mod_cast hd)

theorem nat_prime_toNat_iff (n : Int) :
    Nat.Prime n.toNat ↔ 2 ≤ n ∧ ∀ d : Int, 1 < d → d < n → ¬ d ∣ n := by
  rw [Nat.prime_def_lt']
  by_cases hn : 0 ≤ n
  · obtain ⟨m, rfl⟩ := Int.eq_ofNat_of_zero_le hn
    simp only [Int.toNat_ofNat]
    constructor
    · rintro ⟨h2, h⟩
      refine ⟨by exact_mod_cast h2, fun d h1 hlt hd => ?_⟩
      obtain ⟨e, rfl⟩ := Int.eq_ofNat_of_zero_le (show 0 ≤ d by omega)
      exact h e (by omega) (by exact_mod_cast hlt) (by exact_mod_cast hd)
    · rintro ⟨h2, h⟩
      refine ⟨by exact_mod_cast h2, fun d h1 hlt hd => ?_⟩
      exact h d (by omega) (by exact_mod_cast hlt) (by exact_mod_cast hd)
  · constructor
    · rintro ⟨h2, -⟩
      omega
    · rintro ⟨h2, -⟩
      omega

/-- C2: with the loop bound read as the integer floor square root, `isPrime n` is true
exactly when `n` is prime (`n ≥ 2` and no `d` with `1 < d < n` divides `n`); it is false
for every `n < 2`, false for `-10, 0, 1, 4, 6, 8, 9` and true for `2, 3, 5, 7, 11`. -/
theorem isPrime_correct :
    (∀ n : Int, 0 ≤ n →
      0 ≤ intSqrt n ∧ intSqrt n * intSqrt n ≤ n ∧ n < (intSqrt n + 1) * (intSqrt n + 1)) ∧
    (∀ n : Int, isPrime n = true ↔ (2 ≤ n ∧ ∀ d : Int, 1 < d → d < n → ¬ d ∣ n)) ∧
    (∀ n : Int, isPrime n = true ↔ Nat.Prime n.toNat) ∧
    (∀ n : Int, n < 2 → isPrime n = false) ∧
    (isPrime (-10) = false ∧ isPrime 0 = false ∧ isPrime 1 = false ∧ isPrime 4 = false ∧
      isPrime 6 = false ∧ isPrime 8 = false ∧ isPrime 9 = false) ∧
    (isPrime 2 = true ∧ isPrime 3 = true ∧ isPrime 5 = true ∧ isPrime 7 = true ∧
      isPrime 11 = true) := by
  have hfalse : ∀ n : Int, ¬ Nat.Prime n.toNat → isPrime n = false := fun n h => by
    rw [← Bool.not_eq_true, isPrime_eq_true_iff_nat_prime]
    exact h
  refine ⟨intSqrt_spec, fun n => ?_, isPrime_eq_true_iff_nat_prime, fun n hn => ?_, ?_, ?_⟩
  · rw [isPrime_eq_true_iff_nat_prime, nat_prime_toNat_iff]
  · simp [isPrime, hn]
  · refine ⟨hfalse _ ?_, hfalse _ ?_, hfalse _ ?_, hfalse _ ?_, hfalse _ ?_, hfalse _ ?_,
      hfalse _ ?_⟩
    · exact (by decide : ¬ Nat.Prime 0)
    · exact (by decide : ¬ Nat.Prime 0)
    · exact (by decide : ¬ Nat.Prime 1)
    · exact (by norm_num : ¬ Nat.Prime 4)
    · exact (by norm_num : ¬ Nat.Prime 6)
    · exact (by norm_num : ¬ Nat.Prime 8)
    · exact (by norm_num : ¬ Nat.Prime 9)
  · refine ⟨?_, ?_, ?_, ?_, ?_⟩ <;> rw [isPrime_eq_true_iff_nat_prime]
    · exact (by norm_num : Nat.Prime 2)
    · exact (by norm_num : Nat.Prime 3)
    · exact (by norm_num : Nat.Prime 5)
    · exact (by norm_num : Nat.Prime 7)
    · exact (by norm_num : Nat.Prime 11)

theorem isPrime_correct_witness :
    (isPrime 1 = false) ∧ (isPrime 97 = true ↔ Nat.Prime (97 : Int).toNat) :=
  ⟨isPrime_correct.2.2.2.1 1 (by decide), isPrime_correct.2.2.1 97⟩


/-! ## Binary digit encoding -/

theorem toBinary_zero : toBinary 0 = 0 := by
  rw [toBinary]; simp

theorem toBinary_natCast_step (m : Nat) (hm : m ≠ 0) :
    toBinary (m : Int) = 10 * toBinary ((m / 2 : Nat) : Int) + ((m % 2 : Nat) : Int) := by
  rw [toBinary, if_neg (by exact_mod_cast hm)]
  rfl

theorem toBinary_natCast_eq_sum (k : Nat) :
    ∀ m : Nat, m < 2 ^ k →
      toBinary (m : Int) = ∑ i in Finset.range k, ((m / 2 ^ i % 2 : Nat) : Int) * 10 ^ i := by
  induction k with
  | zero =>
    intro m hm
    have : m = 0 := by simpa using hm
    subst this
    simpa using toBinary_zero
  | succ k ih =>
    intro m hm
    by_cases h0 : m = 0
    · subst h0
      simpa using toBinary_zero
    · rw [toBinary_natCast_step m h0, ih (m / 2) (by rw [pow_succ] at hm; omega),
        Finset.sum_range_succ', Finset.mul_sum]
      simp only [pow_zero, Nat.div_one, mul_one]
      congr 1
      refine Finset.sum_congr rfl (fun i _ => ?_)
      rw [Nat.div_div_eq_div_mul, pow_succ, pow_succ]
      ring_nf

theorem toBinary_natCast_eq_ofDigits (m : Nat) :
    toBinary (m : Int) = ((Nat.ofDigits 10 (Nat.digits 2 m) : Nat) : Int) := by
  induction m using Nat.strong_induction_on with
  | _ m ih =>
    by_cases h0 : m = 0
    · subst h0
      simpa using toBinary_zero
    · rw [toBinary_natCast_step m h0, ih (m / 2) (by omega),
        Nat.digits_def' (by decide) (Nat.pos_of_ne_zero h0), Nat.ofDigits_cons]
      push_cast
      ring

/-- C7: for every integer `n ≥ 0`, with exact arithmetic, `toBinary n` is the integer
whose base-10 digits are the base-2 digits of `n`, that is the sum of
`bit_i(n) * 10 ^ i`; and `toBinary 5 = 101`, `toBinary 10 = 1010`, `toBinary 0 = 0`. -/
theorem toBinary_correct :
    (∀ n : Int, 0 ≤ n →
      0 ≤ toBinary n ∧ Nat.digits 10 (toBinary n).toNat = Nat.digits 2 n.toNat) ∧
    (∀ n : Int, 0 ≤ n → ∀ k : Nat, n < 2 ^ k →
      toBinary n = ∑ i in Finset.range k, ((n.toNat / 2 ^ i % 2 : Nat) : Int) * 10 ^ i) ∧
    toBinary 5 = 101 ∧ toBinary 10 = 1010 ∧ toBinary 0 = 0 := by
  refine ⟨fun n hn => ?_, fun n hn k hk => ?_, ?_, ?_, toBinary_zero⟩
  · obtain ⟨m, rfl⟩ := Int.eq_ofNat_of_zero_le hn
    rw [toBinary_natCast_eq_ofDigits]
    refine ⟨by positivity, ?_⟩
    simp only [Int.toNat_ofNat]
    exact Nat.digits_ofDigits 10 (by decide) _
      (fun l hl => lt_trans (Nat.digits_lt_base (by decide) hl) (by decide))
      (fun h => Nat.getLast_digit_ne_zero 2 (by
        intro h0
        apply h
        rw [h0]
        simp))
  · obtain ⟨m, rfl⟩ := Int.eq_ofNat_of_zero_le hn
    simp only [Int.toNat_ofNat]
    exact toBinary_natCast_eq_sum k m (by exact_mod_cast hk)
  · have h := toBinary_natCast_eq_ofDigits 5
    norm_num at h
    exact h
  · have h := toBinary_natCast_eq_ofDigits 10
    norm_num at h
    exact h

theorem toBinary_correct_witness :
    Nat.digits 10 (toBinary 6).toNat = Nat.digits 2 (6 : Int).toNat ∧
    toBinary 6 = ∑ i in Finset.range 3, (((6 : Int).toNat / 2 ^ i % 2 : Nat) : Int) * 10 ^ i :=
  ⟨(toBinary_correct.1 6 (by decide)).2, toBinary_correct.2.1 6 (by decide) 3 (by decide)⟩

/-! ## Account balance guard -/

namespace BankAccount

/-- C3: `Withdraw a` on balance `b` returns an error exactly when `a > b`; on error the
balance is still `b`, and on success the new balance is `b - a`. -/
theorem withdraw_spec {α : Type} [LinearOrderedField α] (acct : BankAccount α) (a : α) :
    ((acct.Withdraw a).2 ≠ none ↔ a > acct.balance) ∧
    ((acct.Withdraw a).2 ≠ none → (acct.Withdraw a).1.balance = acct.balance) ∧
    ((acct.Withdraw a).2 = none → (acct.Withdraw a).1.balance = acct.balance - a) := by
  unfold Withdraw
  by_cases h : a > acct.balance
  · simp [h]
  · simp [h]

theorem withdraw_spec_witness :
    ((({ balance := 1200 } : BankAccount ℚ).Withdraw 1700).2 ≠ none ↔ (1700 : ℚ) > 1200) ∧
    (({ balance := 1200 } : BankAccount ℚ).Withdraw 1700).1.balance = 1200 ∧
    (({ balance := 1200 } : BankAccount ℚ).Withdraw 200).1.balance = 1200 - 200 :=
  ⟨(withdraw_spec (⟨1200⟩ : BankAccount ℚ) 1700).1,
   (withdraw_spec (⟨1200⟩ : BankAccount ℚ) 1700).2.1 (by norm_num [Withdraw]; simp),
   (withdraw_spec (⟨1200⟩ : BankAccount ℚ) 200).2.2 (by norm_num [Withdraw])⟩

theorem float64_add_def {rnd : ℚ → Option ℚ} (x y : Float64 rnd) :
    x + y = Float64.add x y := rfl

theorem float64_sub_def {rnd : ℚ → Option ℚ} (x y : Float64 rnd) :
    x - y = Float64.sub x y := rfl

theorem float64_lt_def {rnd : ℚ → Option ℚ} (x y : Float64 rnd) :
    x < y ↔ Float64.blt x y = true := Iff.rfl

theorem float64_le_def {rnd : ℚ → Option ℚ} (x y : Float64 rnd) :
    x ≤ y ↔ Float64.ble x y = true := Iff.rfl

theorem float64_nonneg_iff {rnd : ℚ → Option ℚ} (b : Float64 rnd) :
    Float64.finite 0 ≤ b ↔ b = Float64.posInf ∨ ∃ x : ℚ, 0 ≤ x ∧ b = Float64.finite x := by
  rw [float64_le_def]
  cases b <;> simp [Float64.ble]

theorem float64_round_nonneg {rnd : ℚ → Option ℚ}
    (hrnd : ∀ x y : ℚ, 0 ≤ x → rnd x = some y → 0 ≤ y) (x : ℚ) (hx : 0 ≤ x) :
    Float64.finite 0 ≤ (Float64.round x : Float64 rnd) := by
  rw [float64_le_def]
  unfold Float64.round
  cases h : rnd x with
  | none => simp [hx, Float64.ble]
  | some y => simpa [Float64.ble] using hrnd x y hx h

theorem step_balance_nonneg {rnd : ℚ → Option ℚ}
    (hrnd : ∀ x y : ℚ, 0 ≤ x → rnd x = some y → 0 ≤ y)
    (acct : BankAccount (Float64 rnd)) (c : Call (Float64 rnd))
    (h0 : Float64.finite 0 ≤ acct.balance)
    (hdep : ∀ a, c = Call.deposit a → Float64.finite 0 ≤ a)
    (hwd : ∀ a, c = Call.withdraw a → a ≠ Float64.nan ∧ a ≠ Float64.posInf) :
    Float64.finite 0 ≤ (acct.step c).balance := by
  obtain ⟨b⟩ := acct
  simp only at h0
  cases c with
  | deposit a =>
    have ha := hdep a rfl
    simp only [step, Deposit, float64_add_def]
    rcases (float64_nonneg_iff b).mp h0 with rfl | ⟨x, hx, rfl⟩ <;>
    rcases (float64_nonneg_iff a).mp ha with rfl | ⟨y, hy, rfl⟩
    · exact (float64_nonneg_iff _).mpr (Or.inl rfl)
    · exact (float64_nonneg_iff _).mpr (Or.inl rfl)
    · exact (float64_nonneg_iff _).mpr (Or.inl rfl)
    · exact float64_round_nonneg hrnd (x + y) (add_nonneg hx hy)
  | withdraw a =>
    obtain ⟨hnan, hinf⟩ := hwd a rfl
    simp only [step, Withdraw, gt_iff_lt, float64_lt_def, float64_sub_def]
    rcases (float64_nonneg_iff b).mp h0 with rfl | ⟨x, hx, rfl⟩
    · cases a with
      | nan => exact absurd rfl hnan
      | posInf => exact absurd rfl hinf
      | negInf => exact (float64_nonneg_iff _).mpr (Or.inl rfl)
      | finite y => exact (float64_nonneg_iff _).mpr (Or.inl rfl)
    · cases a with
      | nan => exact absurd rfl hnan
      | posInf => exact absurd rfl hinf
      | negInf => exact (float64_nonneg_iff _).mpr (Or.inl rfl)
      | finite y =>
        by_cases hlt : x < y
        · simp only [Float64.blt, hlt, decide_True, if_true]
          exact h0
        · simp only [Float64.blt, hlt, decide_False, Bool.false_eq_true, if_false, Float64.sub]
          exact float64_round_nonneg hrnd (x - y) (by linarith)

/-- C9 (fails as stated): `Withdraw(NaN)` passes the guard, since `NaN > balance` is
false, returns no error and leaves the balance NaN, which is not `≥ 0`; and after
`Deposit(+Inf)`, a non-negative amount, `Withdraw(+Inf)` passes the guard and leaves
the balance `+Inf - +Inf`, NaN.  No finite result is computed on these runs, so the
rounding plays no part; it is taken to be the identity. -/
theorem withdraw_nan_breaks_balance_nonneg :
    (Float64.finite 0 ≤ (Float64.finite 500 : Float64 (fun x => some x)) ∧
      ((⟨Float64.finite 500⟩ : BankAccount (Float64 (fun x => some x))).Withdraw
        Float64.nan).2 = none ∧
      ((⟨Float64.finite 500⟩ : BankAccount (Float64 (fun x => some x))).run
        [Call.withdraw Float64.nan]).balance = Float64.nan ∧
      ¬ Float64.finite 0 ≤ ((⟨Float64.finite 500⟩ : BankAccount (Float64 (fun x => some x))).run
        [Call.withdraw Float64.nan]).balance) ∧
    (Float64.finite 0 ≤ (Float64.posInf : Float64 (fun x => some x)) ∧
      ((⟨Float64.finite 500⟩ : BankAccount (Float64 (fun x => some x))).run
        [Call.deposit Float64.posInf, Call.withdraw Float64.posInf]).balance = Float64.nan ∧
      ¬ Float64.finite 0 ≤ ((⟨Float64.finite 500⟩ : BankAccount (Float64 (fun x => some x))).run
        [Call.deposit Float64.posInf, Call.withdraw Float64.posInf]).balance) := by
  have hnan : ¬ Float64.finite 0 ≤ (Float64.nan : Float64 (fun x => some x)) := by
    rw [float64_le_def]
    simp [Float64.ble]
  refine ⟨⟨?_, rfl, rfl, hnan⟩, ⟨?_, rfl, hnan⟩⟩
  · rw [float64_le_def]
    simp [Float64.ble]
  · rw [float64_le_def]
    simp [Float64.ble]

/-- C9 (amended): from a balance `≥ 0`, after any finite sequence of `Deposit` calls with
non-negative amounts and `Withdraw` calls with amounts that are neither NaN nor `+Inf`,
successful or failing, the balance is `≥ 0`; this for every rounding of finite results
that rounds no non-negative exact result to a negative value. -/
theorem run_balance_nonneg {rnd : ℚ → Option ℚ}
    (hrnd : ∀ x y : ℚ, 0 ≤ x → rnd x = some y → 0 ≤ y)
    (acct : BankAccount (Float64 rnd)) (calls : List (Call (Float64 rnd)))
    (h0 : Float64.finite 0 ≤ acct.balance)
    (hdep : ∀ a, Call.deposit a ∈ calls → Float64.finite 0 ≤ a)
    (hwd : ∀ a, Call.withdraw a ∈ calls → a ≠ Float64.nan ∧ a ≠ Float64.posInf) :
    Float64.finite 0 ≤ (acct.run calls).balance := by
  induction calls generalizing acct with
  | nil => exact h0
  | cons c cs ih =>
    simp only [run, List.foldl_cons]
    refine ih (acct.step c) ?_ (fun a ha => hdep a (List.mem_cons_of_mem _ ha))
      (fun a ha => hwd a (List.mem_cons_of_mem _ ha))
    exact step_balance_nonneg hrnd acct c h0
      (fun a ha => hdep a (by rw [ha]; exact List.mem_cons_self _ _))
      (fun a ha => hwd a (by rw [ha]; exact List.mem_cons_self _ _))

theorem run_balance_nonneg_witness :
    Float64.finite 0 ≤ ((⟨Float64.finite 500⟩ : BankAccount (Float64 (fun x => some x))).run
      [Call.deposit (Float64.finite 700), Call.withdraw (Float64.finite 1700),
       Call.withdraw (Float64.finite 1200), Call.withdraw Float64.negInf]).balance :=
  run_balance_nonneg (fun x y hx h => by cases h; exact hx)
    (⟨Float64.finite 500⟩ : BankAccount (Float64 (fun x => some x))) _ (by decide)
    (by
      intro a ha
      simp only [List.mem_cons, Call.deposit.injEq, reduceCtorEq, List.mem_singleton,
        or_false, List.not_mem_nil] at ha
      rw [ha]
      decide)
    (by
      intro a ha
      simp only [List.mem_cons, Call.withdraw.injEq, reduceCtorEq, List.mem_singleton,
        false_or, List.not_mem_nil, or_false] at ha
      rcases ha with rfl | rfl | rfl <;> exact ⟨by simp, by simp⟩)

/-- C10: `Deposit a` has no failure result and sets the balance to `b + a`; an account
starting at 500 has balance 1200 after `Deposit 700`, and a following `Withdraw 1700`
returns an error and leaves the balance at 1200. -/
theorem deposit_spec :
    (∀ (α : Type) [LinearOrderedField α] (acct : BankAccount α) (a : α),
      (acct.Deposit a).balance = acct.balance + a) ∧
    (({ balance := 500 } : BankAccount ℚ).Deposit 700).balance = 1200 ∧
    ((({ balance := 500 } : BankAccount ℚ).Deposit 700).Withdraw 1700).2 ≠ none ∧
    ((({ balance := 500 } : BankAccount ℚ).Deposit 700).Withdraw 1700).1.balance = 1200 := by
  refine ⟨fun α _ acct a => rfl, ?_, ?_, ?_⟩
  · norm_num [Deposit]
  · norm_num [Deposit, Withdraw]
    simp
  · norm_num [Deposit, Withdraw]

end BankAccount

/-! ## Equation solver -/

namespace Task5

/-- C8: when `a = 0`, `main` reports the single linear root `-c / b` (a solution of
`b * x + c = 0`) if `b ≠ 0`, "Infinite solutions" if `b = 0` and `c = 0`, and
"No real solutions" if `b = 0` and `c ≠ 0`. -/
theorem main_of_a_eq_zero {α : Type} [LinearOrderedField α] (sqrt : α → α) (a b c : α)
    (ha : a = 0) :
    (b ≠ 0 → main sqrt a b c = Output.linearRoot (-c / b) ∧ b * (-c / b) + c = 0) ∧
    (b = 0 → c = 0 → main sqrt a b c = Output.infiniteSolutions) ∧
    (b = 0 → c ≠ 0 → main sqrt a b c = Output.noRealSolutions) := by
  subst ha
  refine ⟨fun hb => ⟨?_, ?_⟩, fun hb hc => ?_, fun hb hc => ?_⟩
  · simp [main, hb]
  · field_simp
    ring
  · simp [main, hb, hc]
  · simp [main, hb, hc]

theorem main_of_a_eq_zero_witness :
    main (fun x : ℚ => x) 0 2 (-4) = Output.linearRoot (-(-4) / 2) ∧
    (2 : ℚ) * (-(-4) / 2) + (-4) = 0 :=
  (main_of_a_eq_zero (fun x : ℚ => x) 0 2 (-4) rfl).1 (by norm_num)

/-- When `a ≠ 0` and `b ≠ 0`, `main` classifies by the discriminant `b ^ 2 - 4 * a * c`. -/
theorem main_of_a_ne_zero_of_b_ne_zero {α : Type} [LinearOrderedField α] (sqrt : α → α)
    (a b c : α) (ha : a ≠ 0) (hb : b ≠ 0) :
    (b ^ 2 - 4 * a * c > 0 →
      main sqrt a b c = Output.twoRoots ((-b + sqrt (b ^ 2 - 4 * a * c)) / (2 * a))
        ((-b - sqrt (b ^ 2 - 4 * a * c)) / (2 * a))) ∧
    (b ^ 2 - 4 * a * c = 0 → main sqrt a b c = Output.oneRoot (-b / (2 * a))) ∧
    (b ^ 2 - 4 * a * c < 0 → main sqrt a b c = Output.noRealSolutions) := by
  refine ⟨fun hd => ?_, fun hd => ?_, fun hd => ?_⟩
  · simp [main, ha, hb, hd]
  · simp [main, ha, hb, hd]
  · simp [main, ha, hb, not_lt_of_gt hd, ne_of_lt hd]

/-- C4 (the code departs from the claim): with `a = 1`, `b = 0`, `c = -1` the
discriminant is `4 > 0`, yet `main` takes the `b == 0` branch and reports
"No real solutions"; with `a = 1`, `b = 0`, `c = 0` the discriminant is `0`, yet it
reports "Infinite solutions". -/
theorem main_b_eq_zero_skips_discriminant (sqrt : ℚ → ℚ) :
    ((0 : ℚ) ^ 2 - 4 * 1 * (-1) > 0 ∧ main sqrt 1 0 (-1) = Output.noRealSolutions) ∧
    ((0 : ℚ) ^ 2 - 4 * 1 * 0 = 0 ∧ main sqrt 1 0 0 = Output.infiniteSolutions) := by
  refine ⟨⟨by norm_num, ?_⟩, ⟨by norm_num, ?_⟩⟩
  · simp [main]
  · simp [main]

end Task5

/-! ## Equation solver over the reals -/

namespace Task5

/-- C11: on the four documented inputs `main` gives: `(1, -3, 2)` two roots, `2` and `1`
(the set `{1, 2}`); `(1, 2, 1)` the single root `-1`; `(1, 0, 1)` no real solution;
`(0, 2, -4)` the linear root `2`. -/
theorem main_documented_inputs :
    main Real.sqrt 1 (-3) 2 = Output.twoRoots 2 1 ∧
    main Real.sqrt 1 2 1 = Output.oneRoot (-1) ∧
    main Real.sqrt 1 0 1 = Output.noRealSolutions ∧
    main Real.sqrt 0 2 (-4) = Output.linearRoot 2 := by
  refine ⟨?_, ?_, ?_, ?_⟩
  · have hd : ((-3 : ℝ)) ^ 2 - 4 * 1 * 2 = 1 := by norm_num
    unfold main
    rw [if_neg (by norm_num), if_neg (by norm_num)]
    simp only [hd, Real.sqrt_one]
    rw [if_pos (by norm_num)]
    norm_num
  · have hd : ((2 : ℝ)) ^ 2 - 4 * 1 * 1 = 0 := by norm_num
    unfold main
    rw [if_neg (by norm_num), if_neg (by norm_num)]
    simp only [hd]
    norm_num
  · unfold main
    rw [if_neg (by norm_num), if_pos rfl, if_neg (by norm_num)]
  · unfold main
    rw [if_pos (by norm_num)]
    norm_num

/-- When `a = 0` or `b ≠ 0`, every output of `main` over the reals is sound. -/
theorem main_sound_of_a_eq_zero_or_b_ne_zero (a b c : ℝ) (h : a = 0 ∨ b ≠ 0) :
    (main Real.sqrt a b c).Sound a b c := by
  unfold main
  by_cases h1 : a = 0 ∧ b ≠ 0
  · rw [if_pos h1]
    obtain ⟨ha, hb⟩ := h1
    subst ha
    simp only [Output.Sound]
    field_simp
    ring
  · rw [if_neg h1]
    by_cases hb : b = 0
    · have ha : a = 0 := by
        rcases h with h | h
        · exact h
        · exact absurd hb h
      subst ha hb
      rw [if_pos rfl]
      by_cases hc : c = 0
      · rw [if_pos hc]
        intro x
        simp [hc]
      · rw [if_neg hc]
        intro x
        simpa using hc
    · rw [if_neg hb]
      have ha : a ≠ 0 := fun ha => h1 ⟨ha, hb⟩
      by_cases hd : b ^ 2 - 4 * a * c > 0
      · simp only [hd, if_true, Output.Sound]
        have hs := Real.sq_sqrt (le_of_lt hd)
        constructor
        · field_simp
          nlinarith [hs]
        · field_simp
          nlinarith [hs]
      · by_cases hd0 : b ^ 2 - 4 * a * c = 0
        · simp only [hd, if_false, hd0, if_true, Output.Sound]
          field_simp
          nlinarith [hd0]
        · simp only [hd, if_false, hd0, Output.Sound]
          intro x hx
          have hlt : b ^ 2 - 4 * a * c < 0 := lt_of_le_of_ne (not_lt.mp hd) hd0
          have hsq : (2 * a * x + b) ^ 2 = b ^ 2 - 4 * a * c := by
            linear_combination 4 * a * hx
          linarith [sq_nonneg (2 * a * x + b)]

/-- C14 (the code departs from the claim): on `(1, 0, -1)` the code reports
"No real solutions" although `x = 1` solves `x ^ 2 - 1 = 0`, and on `(1, 0, 0)` it
reports "Infinite solutions" although `x = 1` does not solve `x ^ 2 = 0`. -/
theorem main_unsound_of_b_eq_zero :
    (main Real.sqrt 1 0 (-1) = Output.noRealSolutions ∧
      (1 : ℝ) * 1 ^ 2 + 0 * 1 + (-1) = 0 ∧
      ¬ (main Real.sqrt 1 0 (-1)).Sound 1 0 (-1)) ∧
    (main Real.sqrt 1 0 0 = Output.infiniteSolutions ∧
      (1 : ℝ) * 1 ^ 2 + 0 * 1 + 0 ≠ 0 ∧
      ¬ (main Real.sqrt 1 0 0).Sound 1 0 0) := by
  have h1 : main Real.sqrt 1 0 (-1) = Output.noRealSolutions := by
    unfold main
    rw [if_neg (by norm_num), if_pos rfl, if_neg (by norm_num)]
  have h2 : main Real.sqrt 1 0 0 = Output.infiniteSolutions := by
    unfold main
    rw [if_neg (by norm_num), if_pos rfl, if_pos rfl]
  refine ⟨⟨h1, by norm_num, ?_⟩, ⟨h2, by norm_num, ?_⟩⟩
  · rw [h1]
    intro hs
    exact hs 1 (by norm_num)
  · rw [h2]
    intro hs
    have := hs 1
    norm_num at this

end Task5

/-! ## Guarded square root -/

/-- C12: over the reals, `SafeSqrt num` returns an error exactly when `num < 0`, and then
the value is `0`; for `num ≥ 0` it returns `(r, nil)` with `r ≥ 0` and `r * r = num`;
`SafeSqrt 25 = (5, nil)` and `SafeSqrt (-9)` is an error. -/
theorem safeSqrt_spec :
    (∀ num : ℝ, ((SafeSqrt Real.sqrt num).2 ≠ none ↔ num < 0) ∧
      ((SafeSqrt Real.sqrt num).2 ≠ none → (SafeSqrt Real.sqrt num).1 = 0) ∧
      (0 ≤ num → (SafeSqrt Real.sqrt num).2 = none ∧ 0 ≤ (SafeSqrt Real.sqrt num).1 ∧
        (SafeSqrt Real.sqrt num).1 * (SafeSqrt Real.sqrt num).1 = num)) ∧
    SafeSqrt Real.sqrt 25 = (5, none) ∧
    (SafeSqrt Real.sqrt (-9)).2 ≠ none := by
  refine ⟨fun num => ?_, ?_, ?_⟩
  · unfold SafeSqrt
    by_cases h : num < 0
    · simp [h, not_le.mpr h]
    · simp [h, not_lt.mp h, Real.mul_self_sqrt (not_lt.mp h)]
  · unfold SafeSqrt
    rw [if_neg (by norm_num)]
    have h : Real.sqrt 25 = 5 := by
      rw [Real.sqrt_eq_iff_mul_self_eq (by norm_num) (by norm_num)]
      norm_num
    rw [h]
  · unfold SafeSqrt
    rw [if_pos (by norm_num)]
    simp

theorem safeSqrt_spec_witness :
    ((SafeSqrt Real.sqrt (-9)).1 = 0) ∧
    ((SafeSqrt Real.sqrt 25).2 = none ∧ 0 ≤ (SafeSqrt Real.sqrt 25).1 ∧
      (SafeSqrt Real.sqrt 25).1 * (SafeSqrt Real.sqrt 25).1 = 25) :=
  ⟨(safeSqrt_spec.1 (-9)).2.1 safeSqrt_spec.2.2, (safeSqrt_spec.1 25).2.2 (by norm_num)⟩

/-! ## Binary digit encoding: 64-bit arithmetic and negative inputs -/

theorem toBinary_natCast_bound (k : Nat) :
    ∀ m : Nat, m < 2 ^ k → 0 ≤ toBinary (m : Int) ∧ 9 * toBinary (m : Int) < 10 ^ k := by
  induction k with
  | zero =>
    intro m hm
    have : m = 0 := by simpa using hm
    subst this
    simp [toBinary_zero]
  | succ k ih =>
    intro m hm
    by_cases h0 : m = 0
    · subst h0
      simp only [Nat.cast_zero, toBinary_zero]
      constructor
      · exact le_rfl
      · positivity
    · obtain ⟨h1, h2⟩ := ih (m / 2) (by rw [pow_succ] at hm; omega)
      rw [toBinary_natCast_step m h0, pow_succ]
      have hb : ((m % 2 : Nat) : Int) ≤ 1 := by omega
      have hb0 : (0 : Int) ≤ ((m % 2 : Nat) : Int) := by positivity
      constructor
      · linarith
      · linarith

theorem toBinary64_natCast_step (m : Nat) (hm : m ≠ 0) :
    toBinary64 (m : Int) =
      wrapInt (wrapInt (10 * toBinary64 ((m / 2 : Nat) : Int)) + ((m % 2 : Nat) : Int)) := by
  rw [toBinary64, if_neg (by exact_mod_cast hm)]
  rfl

theorem toBinary64_zero : toBinary64 0 = 0 := by
  rw [toBinary64]; simp

theorem toBinary64_natCast_eq (m : Nat) (hm : m < 2 ^ 19) :
    toBinary64 (m : Int) = toBinary (m : Int) := by
  induction m using Nat.strong_induction_on with
  | _ m ih =>
    by_cases h0 : m = 0
    · subst h0
      simp [toBinary64_zero, toBinary_zero]
    · obtain ⟨h1, h2⟩ := toBinary_natCast_bound 18 (m / 2) (by omega)
      obtain ⟨h3, h4⟩ := toBinary_natCast_bound 19 m hm
      rw [toBinary_natCast_step m h0] at h3 h4
      rw [toBinary64_natCast_step m h0, ih (m / 2) (by omega) (by omega),
        toBinary_natCast_step m h0,
        stats.wrapInt_of_isGoInt (10 * toBinary ((m / 2 : Nat) : Int))
          (by unfold IsGoInt; constructor <;> linarith),
        stats.wrapInt_of_isGoInt _ (by unfold IsGoInt; constructor <;> linarith)]

theorem toBinary_two_pow (k : Nat) : toBinary ((2 ^ k : Nat) : Int) = 10 ^ k := by
  induction k with
  | zero =>
    rw [toBinary_natCast_step _ (by decide)]
    simp [toBinary_zero]
  | succ k ih =>
    rw [toBinary_natCast_step _ (by positivity)]
    have h1 : 2 ^ (k + 1) / 2 = 2 ^ k := by
      rw [pow_succ]; omega
    have h2 : 2 ^ (k + 1) % 2 = 0 := by
      rw [pow_succ]; omega
    rw [h1, h2, ih, pow_succ]
    push_cast
    ring

/-- C13: with 64-bit wrapping arithmetic `toBinary` equals the exact value of the
recurrence for every `0 ≤ n < 2 ^ 19`; for `n = 524288` the exact value `10 ^ 19`
exceeds `2 ^ 63 - 1` and the 64-bit result, `10 ^ 19 - 2 ^ 64`, differs from it. -/
theorem toBinary64_eq_exact_below_two_pow_19 :
    (∀ n : Int, 0 ≤ n → n < 2 ^ 19 → toBinary64 n = toBinary n) ∧
    (2 : Int) ^ 19 = 524288 ∧
    toBinary 524288 = 10 ^ 19 ∧
    (10 : Int) ^ 19 > 2 ^ 63 - 1 ∧
    toBinary64 524288 = 10 ^ 19 - 2 ^ 64 ∧
    toBinary64 524288 ≠ toBinary 524288 := by
  have hexact : toBinary 524288 = 10 ^ 19 := by
    have h := toBinary_two_pow 19
    norm_num at h
    exact h
  have h18 : toBinary64 ((262144 : Nat) : Int) = 10 ^ 18 := by
    rw [toBinary64_natCast_eq 262144 (by norm_num)]
    have h := toBinary_two_pow 18
    norm_num at h
    exact_mod_cast h
  have h64 : toBinary64 524288 = 10 ^ 19 - 2 ^ 64 := by
    have h := toBinary64_natCast_step 524288 (by decide)
    norm_num at h
    rw [h]
    norm_num at h18
    rw [h18]
    decide
  refine ⟨fun n hn hlt => ?_, by norm_num, hexact, by norm_num, h64, ?_⟩
  · obtain ⟨m, rfl⟩ := Int.eq_ofNat_of_zero_le hn
    exact toBinary64_natCast_eq m (by exact_mod_cast hlt)
  · rw [h64, hexact]
    norm_num

theorem toBinary64_eq_exact_below_two_pow_19_witness :
    toBinary64 524287 = toBinary 524287 :=
  toBinary64_eq_exact_below_two_pow_19.1 524287 (by decide) (by decide)

theorem toBinary_neg_natCast (m : Nat) : toBinary (-(m : Int)) = -toBinary (m : Int) := by
  induction m using Nat.strong_induction_on with
  | _ m ih =>
    by_cases h0 : m = 0
    · subst h0
      simp [toBinary_zero]
    · have hne : -(m : Int) ≠ 0 := by omega
      have hdiv : (-(m : Int)).tdiv 2 = -((m / 2 : Nat) : Int) := by
        rw [Int.neg_tdiv]; rfl
      have hmod : (-(m : Int)).tmod 2 = -((m % 2 : Nat) : Int) := by
        rw [Int.tmod_def, hdiv]
        have := Nat.div_add_mod m 2
        push_cast
        omega
      rw [toBinary, if_neg hne, hdiv, hmod, ih (m / 2) (by omega), toBinary_natCast_step m h0]
      ring

theorem toBinaryFuel_natAbs (k : Nat) :
    ∀ n : Int, n.natAbs < k → toBinaryFuel k n = some (toBinary n) := by
  induction k with
  | zero => intro n hn; omega
  | succ k ih =>
    intro n hn
    by_cases h0 : n = 0
    · subst h0
      simp [toBinaryFuel, toBinary_zero]
    · have hlt : (n.tdiv 2).natAbs < n.natAbs := by
        rw [Int.natAbs_tdiv]
        exact Nat.div_lt_self (by omega) (by decide)
      rw [toBinaryFuel, if_neg h0, ih (n.tdiv 2) (by omega)]
      conv_rhs => rw [toBinary, if_neg h0]
      rfl

/-- C15: `toBinary` terminates on every int input, negative included: for `n ≠ 0`,
`|n / 2| < |n|` under truncating division, a recursion of depth `|n| + 1` reaches the
base case, and the result satisfies the recurrence; with exact arithmetic
`toBinary (-n) = -toBinary n` for every `n > 0`, and `toBinary (-5) = -101`. -/
theorem toBinary_terminates_and_odd :
    (∀ n : Int, n ≠ 0 → (n.tdiv 2).natAbs < n.natAbs) ∧
    (∀ n : Int, toBinaryFuel (n.natAbs + 1) n = some (toBinary n)) ∧
    (∀ n : Int, toBinary n = if n = 0 then 0 else 10 * toBinary (n.tdiv 2) + n.tmod 2) ∧
    (∀ n : Int, toBinary64 n =
      if n = 0 then 0 else wrapInt (wrapInt (10 * toBinary64 (n.tdiv 2)) + n.tmod 2)) ∧
    (∀ n : Int, 0 < n → toBinary (-n) = -toBinary n) ∧
    toBinaryFuel 4 (-5) = some (-101) ∧
    toBinary (-5) = -101 := by
  have h5 : toBinary (-5) = -101 := by
    have h := toBinary_neg_natCast 5
    have h' := toBinary_natCast_eq_ofDigits 5
    norm_num at h h'
    rw [h, h']
    decide
  refine ⟨fun n hn => ?_, fun n => toBinaryFuel_natAbs _ n (by omega), fun n => ?_,
    fun n => ?_, fun n hn => ?_, by decide, h5⟩
  · rw [Int.natAbs_tdiv]
    exact Nat.div_lt_self (by omega) (by decide)
  · rw [toBinary]
  · rw [toBinary64]
  · obtain ⟨m, rfl⟩ := Int.eq_ofNat_of_zero_le (le_of_lt hn)
    exact toBinary_neg_natCast m

theorem toBinary_terminates_and_odd_witness :
    ((-6 : Int).tdiv 2).natAbs < (-6 : Int).natAbs ∧ toBinary (-6) = -toBinary 6 :=
  ⟨toBinary_terminates_and_odd.1 (-6) (by decide),
   toBinary_terminates_and_odd.2.2.2.2.1 6 (by decide)⟩

/-! ## Extremes are attained -/

namespace stats

theorem foldl_largest_eq_init_or_mem (l : List Int) (init : Int) :
    l.foldl (fun largest num => if num > largest then num else largest) init = init ∨
    l.foldl (fun largest num => if num > largest then num else largest) init ∈ l := by
  induction l generalizing init with
  | nil => left; rfl
  | cons y ys ih =>
    simp only [List.foldl_cons]
    split
    · rcases ih y with h | h
      · right; rw [h]; exact List.mem_cons_self _ _
      · right; exact List.mem_cons_of_mem _ h
    · rcases ih init with h | h
      · left; exact h
      · right; exact List.mem_cons_of_mem _ h

theorem foldl_smallest_eq_init_or_mem (l : List Int) (init : Int) :
    l.foldl (fun smallest num => if num < smallest then num else smallest) init = init ∨
    l.foldl (fun smallest num => if num < smallest then num else smallest) init ∈ l := by
  induction l generalizing init with
  | nil => left; rfl
  | cons y ys ih =>
    simp only [List.foldl_cons]
    split
    · rcases ih y with h | h
      · right; rw [h]; exact List.mem_cons_self _ _
      · right; exact List.mem_cons_of_mem _ h
    · rcases ih init with h | h
      · left; exact h
      · right; exact List.mem_cons_of_mem _ h

/-- C16: for every non-empty slice `S`, `Largest S` and `Smallest S` are elements of `S`
that bound every element (the maximum and the minimum of `S`), and
`Smallest S ≤ Largest S`, with equality exactly when all elements of `S` are equal. -/
theorem largest_smallest_attained (S : List Int) (hS : S ≠ []) :
    ∃ lo hi, Smallest S = Except.ok lo ∧ Largest S = Except.ok hi ∧
      lo ∈ S ∧ hi ∈ S ∧ (∀ x ∈ S, lo ≤ x) ∧ (∀ x ∈ S, x ≤ hi) ∧ lo ≤ hi ∧
      (lo = hi ↔ ∀ x ∈ S, ∀ y ∈ S, x = y) := by
  cases S with
  | nil => exact absurd rfl hS
  | cons first rest =>
    have hlo_mem : (first :: rest).foldl
        (fun smallest num => if num < smallest then num else smallest) first ∈ first :: rest := by
      rcases foldl_smallest_eq_init_or_mem (first :: rest) first with h | h
      · rw [h]; exact List.mem_cons_self _ _
      · exact h
    have hhi_mem : (first :: rest).foldl
        (fun largest num => if num > largest then num else largest) first ∈ first :: rest := by
      rcases foldl_largest_eq_init_or_mem (first :: rest) first with h | h
      · rw [h]; exact List.mem_cons_self _ _
      · exact h
    have hlo := fun x hx => foldl_smallest_le_mem (first :: rest) first x hx
    have hhi := fun x hx => foldl_largest_ge_mem (first :: rest) first x hx
    refine ⟨_, _, rfl, rfl, hlo_mem, hhi_mem, hlo, hhi, hhi _ hlo_mem, ?_⟩
    constructor
    · intro heq x hx y hy
      have h1 := hlo x hx
      have h2 := hhi x hx
      have h3 := hlo y hy
      have h4 := hhi y hy
      omega
    · intro hall
      exact hall _ hlo_mem _ hhi_mem

theorem largest_smallest_attained_witness :
    ([3, 1, 4, 1, 5, 9, 2, 6, 5, 3, 5] : List Int) ≠ [] ∧
    ∃ lo hi, Smallest [3, 1, 4, 1, 5, 9, 2, 6, 5, 3, 5] = Except.ok lo ∧
      Largest [3, 1, 4, 1, 5, 9, 2, 6, 5, 3, 5] = Except.ok hi ∧
      lo ∈ ([3, 1, 4, 1, 5, 9, 2, 6, 5, 3, 5] : List Int) ∧
      hi ∈ ([3, 1, 4, 1, 5, 9, 2, 6, 5, 3, 5] : List Int) ∧
      (∀ x ∈ ([3, 1, 4, 1, 5, 9, 2, 6, 5, 3, 5] : List Int), lo ≤ x) ∧
      (∀ x ∈ ([3, 1, 4, 1, 5, 9, 2, 6, 5, 3, 5] : List Int), x ≤ hi) ∧ lo ≤ hi ∧
      (lo = hi ↔ ∀ x ∈ ([3, 1, 4, 1, 5, 9, 2, 6, 5, 3, 5] : List Int),
        ∀ y ∈ ([3, 1, 4, 1, 5, 9, 2, 6, 5, 3, 5] : List Int), x = y) :=
  ⟨by decide, largest_smallest_attained _ (by decide)⟩

end stats

/-! ## String writer -/

namespace StringWriter

theorem writeAll_spec (ds : List GoString) :
    ∀ sw : StringWriter,
      (sw.writeAll ds).1.content = sw.content ++ ds.flatten ∧
      (sw.writeAll ds).2 = ds.map (fun d => (d.length : Int)) := by
  induction ds with
  | nil => intro sw; simp [writeAll]
  | cons d ds ih =>
    intro sw
    obtain ⟨h1, h2⟩ := ih (sw.Write d).1
    simp only [writeAll, List.flatten_cons, List.map_cons]
    rw [h1, h2]
    simp [Write]

theorem sum_map_length (ds : List GoString) :
    (ds.map (fun d => (d.length : Int))).sum = (ds.flatten.length : Int) := by
  induction ds with
  | nil => simp
  | cons d ds ih =>
    simp only [List.map_cons, List.sum_cons, List.flatten_cons, List.length_append,
      Nat.cast_add]
    rw [ih]

/-- C18: `Write data` returns `(len(data), nil)` and sets `content` to the old content
followed by `data`; after writing `d1, ..., dk` in order to an empty writer, `content`
is `d1 ++ ... ++ dk` and the returned counts sum to `len(content)`. -/
theorem write_spec :
    (∀ (sw : StringWriter) (data : GoString),
      (sw.Write data).2 = ((data.length : Int), none) ∧
      (sw.Write data).1.content = sw.content ++ data) ∧
    (∀ ds : List GoString,
      ((⟨[]⟩ : StringWriter).writeAll ds).1.content = ds.flatten ∧
      ((⟨[]⟩ : StringWriter).writeAll ds).2 = ds.map (fun d => (d.length : Int)) ∧
      ((⟨[]⟩ : StringWriter).writeAll ds).2.sum =
        ((((⟨[]⟩ : StringWriter).writeAll ds).1.content.length : Nat) : Int)) ∧
    ((⟨[]⟩ : StringWriter).writeAll
      [[72, 101, 108, 108, 111, 44, 32],
       [71, 111, 108, 97, 110, 103, 32, 87, 114, 105, 116, 101, 114, 33]]) =
      (⟨[72, 101, 108, 108, 111, 44, 32,
         71, 111, 108, 97, 110, 103, 32, 87, 114, 105, 116, 101, 114, 33]⟩, [7, 14]) := by
  refine ⟨fun sw data => ⟨rfl, rfl⟩, fun ds => ?_, rfl⟩
  obtain ⟨h1, h2⟩ := writeAll_spec ds ⟨[]⟩
  refine ⟨by simpa using h1, h2, ?_⟩
  rw [h2, h1, sum_map_length]
  simp

end StringWriter

/-! ## Grading switch -/

namespace Task4

theorem grade_eq (score : Int) :
    grade score =
      if 80 ≤ score ∧ score ≤ 100 then "A+"
      else if 75 ≤ score ∧ score ≤ 79 then "A"
      else if 70 ≤ score ∧ score ≤ 74 then "A-"
      else if 65 ≤ score ∧ score ≤ 69 then "B+"
      else if 60 ≤ score ∧ score ≤ 64 then "B"
      else if 55 ≤ score ∧ score ≤ 59 then "B-"
      else if 50 ≤ score ∧ score ≤ 54 then "C+"
      else if 45 ≤ score ∧ score ≤ 49 then "C"
      else if 40 ≤ score ∧ score ≤ 44 then "D"
      else if 0 ≤ score ∧ score ≤ 39 then "F"
      else "Invalid score" := by
  unfold grade gradeCases
  by_cases h0 : 80 ≤ score ∧ score ≤ 100
  · rw [if_pos h0, List.find?_cons_of_pos _ (by simpa using h0)]
  rw [if_neg h0, List.find?_cons_of_neg _ (by simpa using h0)]
  by_cases h1 : 75 ≤ score ∧ score ≤ 79
  · rw [if_pos h1, List.find?_cons_of_pos _ (by simpa using h1)]
  rw [if_neg h1, List.find?_cons_of_neg _ (by simpa using h1)]
  by_cases h2 : 70 ≤ score ∧ score ≤ 74
  · rw [if_pos h2, List.find?_cons_of_pos _ (by simpa using h2)]
  rw [if_neg h2, List.find?_cons_of_neg _ (by simpa using h2)]
  by_cases h3 : 65 ≤ score ∧ score ≤ 69
  · rw [if_pos h3, List.find?_cons_of_pos _ (by simpa using h3)]
  rw [if_neg h3, List.find?_cons_of_neg _ (by simpa using h3)]
  by_cases h4 : 60 ≤ score ∧ score ≤ 64
  · rw [if_pos h4, List.find?_cons_of_pos _ (by simpa using h4)]
  rw [if_neg h4, List.find?_cons_of_neg _ (by simpa using h4)]
  by_cases h5 : 55 ≤ score ∧ score ≤ 59
  · rw [if_pos h5, List.find?_cons_of_pos _ (by simpa using h5)]
  rw [if_neg h5, List.find?_cons_of_neg _ (by simpa using h5)]
  by_cases h6 : 50 ≤ score ∧ score ≤ 54
  · rw [if_pos h6, List.find?_cons_of_pos _ (by simpa using h6)]
  rw [if_neg h6, List.find?_cons_of_neg _ (by simpa using h6)]
  by_cases h7 : 45 ≤ score ∧ score ≤ 49
  · rw [if_pos h7, List.find?_cons_of_pos _ (by simpa using h7)]
  rw [if_neg h7, List.find?_cons_of_neg _ (by simpa using h7)]
  by_cases h8 : 40 ≤ score ∧ score ≤ 44
  · rw [if_pos h8, List.find?_cons_of_pos _ (by simpa using h8)]
  rw [if_neg h8, List.find?_cons_of_neg _ (by simpa using h8)]
  by_cases h9 : 0 ≤ score ∧ score ≤ 39
  · rw [if_pos h9, List.find?_cons_of_pos _ (by simpa using h9)]
  rw [if_neg h9, List.find?_cons_of_neg _ (by simpa using h9)]
  rfl

theorem grade_cases (score : Int) :
    ((80 ≤ score ∧ score ≤ 100) ∧ grade score = "A+") ∨
    ((75 ≤ score ∧ score ≤ 79) ∧ grade score = "A") ∨
    ((70 ≤ score ∧ score ≤ 74) ∧ grade score = "A-") ∨
    ((65 ≤ score ∧ score ≤ 69) ∧ grade score = "B+") ∨
    ((60 ≤ score ∧ score ≤ 64) ∧ grade score = "B") ∨
    ((55 ≤ score ∧ score ≤ 59) ∧ grade score = "B-") ∨
    ((50 ≤ score ∧ score ≤ 54) ∧ grade score = "C+") ∨
    ((45 ≤ score ∧ score ≤ 49) ∧ grade score = "C") ∨
    ((40 ≤ score ∧ score ≤ 44) ∧ grade score = "D") ∨
    ((0 ≤ score ∧ score ≤ 39) ∧ grade score = "F") ∨
    ((score < 0 ∨ 100 < score) ∧ grade score = "Invalid score") := by
  rw [grade_eq]
  by_cases h0 : 80 ≤ score ∧ score ≤ 100
  · rw [if_pos h0]
    exact Or.inl ⟨h0, rfl⟩
  rw [if_neg h0]
  by_cases h1 : 75 ≤ score ∧ score ≤ 79
  · rw [if_pos h1]
    exact Or.inr (Or.inl ⟨h1, rfl⟩)
  rw [if_neg h1]
  by_cases h2 : 70 ≤ score ∧ score ≤ 74
  · rw [if_pos h2]
    exact Or.inr (Or.inr (Or.inl ⟨h2, rfl⟩))
  rw [if_neg h2]
  by_cases h3 : 65 ≤ score ∧ score ≤ 69
  · rw [if_pos h3]
    exact Or.inr (Or.inr (Or.inr (Or.inl ⟨h3, rfl⟩)))
  rw [if_neg h3]
  by_cases h4 : 60 ≤ score ∧ score ≤ 64
  · rw [if_pos h4]
    exact Or.inr (Or.inr (Or.inr (Or.inr (Or.inl ⟨h4, rfl⟩))))
  rw [if_neg h4]
  by_cases h5 : 55 ≤ score ∧ score ≤ 59
  · rw [if_pos h5]
    exact Or.inr (Or.inr (Or.inr (Or.inr (Or.inr (Or.inl ⟨h5, rfl⟩)))))
  rw [if_neg h5]
  by_cases h6 : 50 ≤ score ∧ score ≤ 54
  · rw [if_pos h6]
    exact Or.inr (Or.inr (Or.inr (Or.inr (Or.inr (Or.inr (Or.inl ⟨h6, rfl⟩))))))
  rw [if_neg h6]
  by_cases h7 : 45 ≤ score ∧ score ≤ 49
  · rw [if_pos h7]
    exact Or.inr (Or.inr (Or.inr (Or.inr (Or.inr (Or.inr (Or.inr (Or.inl ⟨h7, rfl⟩)))))))
  rw [if_neg h7]
  by_cases h8 : 40 ≤ score ∧ score ≤ 44
  · rw [if_pos h8]
    exact Or.inr (Or.inr (Or.inr (Or.inr (Or.inr (Or.inr (Or.inr (Or.inr (Or.inl ⟨h8, rfl⟩))))))))
  rw [if_neg h8]
  by_cases h9 : 0 ≤ score ∧ score ≤ 39
  · rw [if_pos h9]
    exact Or.inr (Or.inr (Or.inr (Or.inr (Or.inr (Or.inr (Or.inr (Or.inr (Or.inr (Or.inl ⟨h9, rfl⟩)))))))))
  rw [if_neg h9]
  exact Or.inr (Or.inr (Or.inr (Or.inr (Or.inr (Or.inr (Or.inr (Or.inr (Or.inr (Or.inr ⟨by omega, rfl⟩)))))))))

theorem gradeRank_values :
    gradeRank "F" = 0 ∧ gradeRank "D" = 1 ∧ gradeRank "C" = 2 ∧ gradeRank "C+" = 3 ∧
    gradeRank "B-" = 4 ∧ gradeRank "B" = 5 ∧ gradeRank "B+" = 6 ∧ gradeRank "A-" = 7 ∧
    gradeRank "A" = 8 ∧ gradeRank "A+" = 9 ∧ gradeRank "Invalid score" = 10 := by
  refine ⟨?_, ?_, ?_, ?_, ?_, ?_, ?_, ?_, ?_, ?_, ?_⟩ <;> rfl

theorem grade_mem_gradeOrder (score : Int) (h0 : 0 ≤ score) (h100 : score ≤ 100) :
    grade score ∈ gradeOrder := by
  obtain h | h | h | h | h | h | h | h | h | h | h := grade_cases score
  all_goals
    obtain ⟨hr, hg⟩ := h
    first
    | omega
    | (rw [hg]; decide)

theorem grade_invalid_iff (score : Int) :
    grade score = "Invalid score" ↔ score < 0 ∨ score > 100 := by
  obtain h | h | h | h | h | h | h | h | h | h | h := grade_cases score
  all_goals
    obtain ⟨hr, hg⟩ := h
    rw [hg]
    constructor
    · intro he
      first
      | omega
      | exact absurd he (by decide)
    · intro he
      first
      | omega
      | rfl

theorem gradeRank_grade_mono (s t : Int) (h0 : 0 ≤ s) (hst : s ≤ t) (h100 : t ≤ 100) :
    gradeRank (grade s) ≤ gradeRank (grade t) := by
  obtain ⟨r0, r1, r2, r3, r4, r5, r6, r7, r8, r9, r10⟩ := gradeRank_values
  obtain h | h | h | h | h | h | h | h | h | h | h := grade_cases s <;>
  obtain h' | h' | h' | h' | h' | h' | h' | h' | h' | h' | h' := grade_cases t
  all_goals
    obtain ⟨hr, hg⟩ := h
    obtain ⟨hr', hg'⟩ := h'
    simp only [hg, hg', r0, r1, r2, r3, r4, r5, r6, r7, r8, r9, r10]
    omega

theorem matching_cases_eq (score : Int) (h0 : 0 ≤ score) (h100 : score ≤ 100) :
    (gradeCases.filter (fun c => c.1 score)).map Prod.snd = [grade score] := by
  obtain ⟨n, rfl⟩ := Int.eq_ofNat_of_zero_le h0
  have hn : n ≤ 100 := by exact_mod_cast h100
  interval_cases n <;> rfl

theorem grade_ranges (score : Int) :
    (grade score = "F" ↔ 0 ≤ score ∧ score ≤ 39) ∧
    (grade score = "D" ↔ 40 ≤ score ∧ score ≤ 44) ∧
    (grade score = "C" ↔ 45 ≤ score ∧ score ≤ 49) ∧
    (grade score = "C+" ↔ 50 ≤ score ∧ score ≤ 54) ∧
    (grade score = "B-" ↔ 55 ≤ score ∧ score ≤ 59) ∧
    (grade score = "B" ↔ 60 ≤ score ∧ score ≤ 64) ∧
    (grade score = "B+" ↔ 65 ≤ score ∧ score ≤ 69) ∧
    (grade score = "A-" ↔ 70 ≤ score ∧ score ≤ 74) ∧
    (grade score = "A" ↔ 75 ≤ score ∧ score ≤ 79) ∧
    (grade score = "A+" ↔ 80 ≤ score ∧ score ≤ 100) := by
  obtain h | h | h | h | h | h | h | h | h | h | h := grade_cases score
  all_goals
    obtain ⟨hr, hg⟩ := h
    rw [hg]
    refine ⟨?_, ?_, ?_, ?_, ?_, ?_, ?_, ?_, ?_, ?_⟩
    all_goals
      constructor
      · intro he
        first
        | omega
        | exact absurd he (by decide)
      · intro he
        first
        | omega
        | rfl

/-- C19: the grading switch is a total, gap-free, monotone classification: for every
score in `[0, 100]` exactly one case matches and its line, the grade, is one of
`F, D, C, C+, B-, B, B+, A-, A, A+`; the grades correspond to the ranges `0-39`,
`40-44`, ..., `75-79`, `80-100`; the line is "Invalid score" exactly when the score is
`< 0` or `> 100`; and for `s ≤ t` in `[0, 100]` the grade of `t` is not lower than the
grade of `s`. -/
theorem grade_total_monotone :
    gradeOrder = ["F", "D", "C", "C+", "B-", "B", "B+", "A-", "A", "A+"] ∧
    (∀ score : Int, 0 ≤ score → score ≤ 100 →
      (gradeCases.filter (fun c => c.1 score)).length = 1 ∧
      (gradeCases.filter (fun c => c.1 score)).map Prod.snd = [grade score] ∧
      grade score ∈ gradeOrder) ∧
    (∀ score : Int,
      (grade score = "F" ↔ 0 ≤ score ∧ score ≤ 39) ∧
      (grade score = "D" ↔ 40 ≤ score ∧ score ≤ 44) ∧
      (grade score = "C" ↔ 45 ≤ score ∧ score ≤ 49) ∧
      (grade score = "C+" ↔ 50 ≤ score ∧ score ≤ 54) ∧
      (grade score = "B-" ↔ 55 ≤ score ∧ score ≤ 59) ∧
      (grade score = "B" ↔ 60 ≤ score ∧ score ≤ 64) ∧
      (grade score = "B+" ↔ 65 ≤ score ∧ score ≤ 69) ∧
      (grade score = "A-" ↔ 70 ≤ score ∧ score ≤ 74) ∧
      (grade score = "A" ↔ 75 ≤ score ∧ score ≤ 79) ∧
      (grade score = "A+" ↔ 80 ≤ score ∧ score ≤ 100)) ∧
    (∀ score : Int, grade score = "Invalid score" ↔ score < 0 ∨ score > 100) ∧
    (∀ s t : Int, 0 ≤ s → s ≤ t → t ≤ 100 →
      gradeRank (grade s) ≤ gradeRank (grade t)) := by
  refine ⟨rfl, fun score h0 h100 => ⟨?_, matching_cases_eq score h0 h100,
    grade_mem_gradeOrder score h0 h100⟩, grade_ranges, grade_invalid_iff,
    gradeRank_grade_mono⟩
  have h := congrArg List.length (matching_cases_eq score h0 h100)
  simpa using h

theorem grade_total_monotone_witness :
    ((gradeCases.filter (fun c => c.1 77)).length = 1 ∧
      (gradeCases.filter (fun c => c.1 77)).map Prod.snd = [grade 77] ∧
      grade 77 ∈ gradeOrder) ∧
    gradeRank (grade 39) ≤ gradeRank (grade 40) :=
  ⟨grade_total_monotone.2.1 77 (by decide) (by decide),
   grade_total_monotone.2.2.2.2 39 40 (by decide) (by decide) (by decide)⟩

end Task4

/-! ## Factorial loop -/

namespace Task6

theorem wrapInt_wrapInt_mul (a b : Int) : wrapInt (wrapInt a * b) = wrapInt (a * b) := by
  have h : wrapInt a = a - 2 ^ 64 * ((a + 2 ^ 63) / 2 ^ 64) := by
    unfold wrapInt
    omega
  have e : wrapInt a * b + 2 ^ 63 = a * b + 2 ^ 63 + 2 ^ 64 * (-(((a + 2 ^ 63) / 2 ^ 64) * b)) := by
    rw [h]; ring
  unfold wrapInt at *
  rw [e, Int.add_mul_emod_self_left]

theorem loop_exits (n : Nat) (hn : (n : Int) < 2 ^ 63 - 1) (k : Nat) :
    ∀ (j extra : Nat), j + k = n →
      loop (k + 1 + extra) n ((j : Int) + 1) (wrapInt (Nat.factorial j)) =
        some (wrapInt (Nat.factorial n)) := by
  induction k with
  | zero =>
    intro j extra hj
    have : j = n := by omega
    subst this
    rw [show 0 + 1 + extra = extra + 1 by omega, loop, if_neg (by omega)]
  | succ k ih =>
    intro j extra hj
    rw [show k + 1 + 1 + extra = (k + 1 + extra) + 1 by omega, loop, if_pos (by omega)]
    have h1 : wrapInt ((j : Int) + 1 + 1) = ((j + 1 : Nat) : Int) + 1 := by
      rw [stats.wrapInt_of_isGoInt _ (by unfold IsGoInt; omega)]
      push_cast
      ring
    have h2 : wrapInt (wrapInt (Nat.factorial j) * ((j : Int) + 1)) =
        wrapInt (Nat.factorial (j + 1)) := by
      rw [wrapInt_wrapInt_mul, Nat.factorial_succ]
      push_cast
      ring_nf
    rw [h1, h2]
    exact ih (j + 1) extra (by omega)

theorem loop_never_exits_at_max (fuel : Nat) :
    ∀ i factorial : Int, IsGoInt i → loop fuel (2 ^ 63 - 1) i factorial = none := by
  induction fuel with
  | zero => intro i factorial _; rfl
  | succ fuel ih =>
    intro i factorial hi
    have hle : i ≤ 2 ^ 63 - 1 := by unfold IsGoInt at hi; omega
    rw [loop, if_pos hle]
    exact ih _ _ (by unfold IsGoInt wrapInt; omega)

theorem main_of_nonneg (n : Int) (h0 : 0 ≤ n) (hlt : n < 2 ^ 63 - 1) (fuel : Nat)
    (hfuel : n.toNat + 1 ≤ fuel) :
    main fuel n = some (Output.factorialIs n (wrapInt (Nat.factorial n.toNat))) := by
  obtain ⟨m, rfl⟩ := Int.eq_ofNat_of_zero_le h0
  obtain ⟨extra, rfl⟩ := Nat.exists_eq_add_of_le hfuel
  simp only [Int.toNat_ofNat] at *
  have h := loop_exits m hlt m 0 extra (by omega)
  simp only [Nat.factorial_zero, Nat.cast_zero, Nat.cast_one, zero_add] at h
  rw [show wrapInt 1 = 1 by decide] at h
  unfold main
  rw [if_neg (by omega), h]
  rfl

theorem wrapInt_factorial_of_le_twenty (m : Nat) (hm : m ≤ 20) :
    wrapInt (Nat.factorial m) = Nat.factorial m := by
  have h20 : Nat.factorial 20 = 2432902008176640000 := by decide
  have hle : Nat.factorial m ≤ Nat.factorial 20 := Nat.factorial_le hm
  apply stats.wrapInt_of_isGoInt
  unfold IsGoInt
  rw [h20] at hle
  have : (Nat.factorial m : Int) ≤ 2432902008176640000 := by exact_mod_cast hle
  constructor
  · have : (0 : Int) ≤ Nat.factorial m := by positivity
    omega
  · omega

/-- C17 (fails as stated): for `n = 2 ^ 63 - 1`, a value a Go `int` can hold, the loop
condition `i <= n` is true for every `int` value of `i`, so the loop never exits. -/
theorem main_never_exits_at_max :
    IsGoInt (2 ^ 63 - 1) ∧ ∀ fuel : Nat, main fuel (2 ^ 63 - 1) = none := by
  refine ⟨by decide, fun fuel => ?_⟩
  unfold main
  rw [if_neg (by decide), loop_never_exits_at_max fuel 1 1 (by decide)]
  rfl

/-- C17 (amended): for every Go `int` `n` other than `2 ^ 63 - 1` the program terminates;
for `n ≥ 0` the loop exits after `n + 1` evaluations of its condition and leaves
`factorial` equal to `n!` reduced modulo `2 ^ 64` into the `int` range, which is exactly
`n!` for `0 ≤ n ≤ 20` (and `1` for `n = 0`); for `n < 0` the loop is not run and the
program reports that the factorial is not defined. -/
theorem main_spec (n : Int) (hn : IsGoInt n) (hmax : n ≠ 2 ^ 63 - 1) :
    (∀ fuel : Nat, n.toNat + 1 ≤ fuel → ∃ out, main fuel n = some out) ∧
    (0 ≤ n → ∀ fuel : Nat, n.toNat + 1 ≤ fuel →
      main fuel n = some (Output.factorialIs n (wrapInt (Nat.factorial n.toNat)))) ∧
    (0 ≤ n → n ≤ 20 → ∀ fuel : Nat, n.toNat + 1 ≤ fuel →
      main fuel n = some (Output.factorialIs n (Nat.factorial n.toNat))) ∧
    (n = 0 → main 1 n = some (Output.factorialIs 0 1)) ∧
    (n < 0 → ∀ fuel : Nat, main fuel n = some Output.notDefined) := by
  have hlt : n < 2 ^ 63 - 1 := by unfold IsGoInt at hn; omega
  have hneg : n < 0 → ∀ fuel : Nat, main fuel n = some Output.notDefined := by
    intro h fuel
    unfold main
    rw [if_pos h]
  refine ⟨fun fuel hfuel => ?_, fun h0 fuel hfuel => main_of_nonneg n h0 hlt fuel hfuel,
    fun h0 h20 fuel hfuel => ?_, fun h0 => ?_, hneg⟩
  · by_cases h0 : 0 ≤ n
    · exact ⟨_, main_of_nonneg n h0 hlt fuel hfuel⟩
    · exact ⟨_, hneg (by omega) fuel⟩
  · rw [main_of_nonneg n h0 hlt fuel hfuel, wrapInt_factorial_of_le_twenty _ (by omega)]
  · subst h0
    rfl

theorem main_spec_witness :
    main 6 5 = some (Output.factorialIs 5 (Nat.factorial (5 : Int).toNat)) ∧
    main 0 (-3) = some Output.notDefined :=
  ⟨(main_spec 5 (by decide) (by decide)).2.2.1 (by decide) (by decide) 6 (by decide),
   (main_spec (-3) (by decide) (by decide)).2.2.2.2 (by decide) 0⟩

end Task6
